import Mathlib

/-!
Verification of the AESD assignment repository: a shallow embedding of the
circular-buffer record store (aesd-circular-buffer.c), the char-driver
read/write/seek operations (aesdchar.c), and the socket server's packet
framing and seek-command parsing (aesdsocket.c), together with theorems
settling the specification's claims about them.

Bytes are modelled as natural numbers (the byte value), buffers as lists of
bytes, and machine counters as Nat; all arithmetic the C code performs on
small in-range values is faithfully represented, with wraparound made
explicit where the C code relies on it.
-/

/-- Modelled from the spec: the header aesd-circular-buffer.h defining this
macro is not among the source files; the spec fixes the ring capacity at 10
("Capacity is fixed (reference value: 10)"), matching the driver comments
("the most recent 10 write commands"). -/
def AESDCHAR_MAX_WRITE_OPERATIONS_SUPPORTED : Nat := 10

/-- One slot of the ring: a byte buffer together with its recorded size
(struct aesd_buffer_entry: buffptr, size). -/
structure aesd_buffer_entry where
  buffptr : List Nat
  size : Nat
deriving DecidableEq, Repr

/-- The zeroed entry (what memset-initialised slots hold). -/
def emptyEntry : aesd_buffer_entry := { buffptr := [], size := 0 }

/-- struct aesd_circular_buffer: the slot array, input and output indices
and the full flag. -/
structure aesd_circular_buffer where
  entry : List aesd_buffer_entry
  in_offs : Nat
  out_offs : Nat
  full : Bool
deriving DecidableEq, Repr

/-- aesd_circular_buffer_init: memset to zero — all slots empty, indices 0,
full flag clear. -/
def aesd_circular_buffer_init : aesd_circular_buffer :=
  { entry := List.replicate AESDCHAR_MAX_WRITE_OPERATIONS_SUPPORTED emptyEntry
  , in_offs := 0
  , out_offs := 0
  , full := false }

/-- aesd_circular_buffer_add_entry: store at in_offs, advance out_offs first
when the buffer was full, advance in_offs, set full when the indices meet. -/
def aesd_circular_buffer_add_entry (buffer : aesd_circular_buffer)
    (add_entry : aesd_buffer_entry) : aesd_circular_buffer :=
  let entry2 := buffer.entry.set buffer.in_offs add_entry
  let out2 := if buffer.full then
      (buffer.out_offs + 1) % AESDCHAR_MAX_WRITE_OPERATIONS_SUPPORTED
    else buffer.out_offs
  let in2 := (buffer.in_offs + 1) % AESDCHAR_MAX_WRITE_OPERATIONS_SUPPORTED
  let full2 := if in2 = out2 then true else buffer.full
  { entry := entry2, in_offs := in2, out_offs := out2, full := full2 }

/-- The while(1) loop body of aesd_circular_buffer_find_entry_offset_for_fpos.
The C loop steps the index with wraparound and breaks when it reaches
in_offs; it can visit at most capacity slots, so fuel = capacity makes the
translation exact for any state with in-range indices. -/
def find_loop (entries : List aesd_buffer_entry) (in_offs char_offset : Nat) :
    Nat → Nat → Nat → Option (Nat × Nat)
  | 0, _, _ => none
  | fuel + 1, currentIndex, cumulativeOffset =>
    let e := entries.getD currentIndex emptyEntry
    if char_offset < cumulativeOffset + e.size then
      some (currentIndex, char_offset - cumulativeOffset)
    else
      let nextIndex := (currentIndex + 1) % AESDCHAR_MAX_WRITE_OPERATIONS_SUPPORTED
      if nextIndex = in_offs then none
      else find_loop entries in_offs char_offset fuel nextIndex (cumulativeOffset + e.size)

/-- aesd_circular_buffer_find_entry_offset_for_fpos: NULL on the empty ring,
otherwise walk from out_offs accumulating sizes. The C function returns a
pointer into the slot array plus the local byte offset through
entry_offset_byte_rtn; the pointer is modelled by the slot index it
designates. -/
def aesd_circular_buffer_find_entry_offset_for_fpos (buffer : aesd_circular_buffer)
    (char_offset : Nat) : Option (Nat × Nat) :=
  if buffer.full = false ∧ buffer.in_offs = buffer.out_offs then none
  else find_loop buffer.entry buffer.in_offs char_offset
    AESDCHAR_MAX_WRITE_OPERATIONS_SUPPORTED buffer.out_offs 0

/-- The summation loop of aesd_get_total_size, fueled like find_loop. -/
def size_loop (entries : List aesd_buffer_entry) (in_offs : Nat) :
    Nat → Nat → Nat
  | 0, _ => 0
  | fuel + 1, index =>
    let s := (entries.getD index emptyEntry).size
    let next := (index + 1) % AESDCHAR_MAX_WRITE_OPERATIONS_SUPPORTED
    if next = in_offs then s else s + size_loop entries in_offs fuel next

/-- aesd_get_total_size: 0 on the empty ring, otherwise the sum of the valid
entries' sizes from out_offs to in_offs.  The C function receives the device
and reads only its circular buffer; the model takes the buffer directly. -/
def aesd_get_total_size (buffer : aesd_circular_buffer) : Nat :=
  if buffer.full = false ∧ buffer.in_offs = buffer.out_offs then 0
  else size_loop buffer.entry buffer.in_offs
    AESDCHAR_MAX_WRITE_OPERATIONS_SUPPORTED buffer.out_offs

/-- The entry-count computation inside aesd_adjust_file_offset (the three
cases on full / unwrapped / wrapped). -/
def entryCount (buffer : aesd_circular_buffer) : Nat :=
  if buffer.full then AESDCHAR_MAX_WRITE_OPERATIONS_SUPPORTED
  else if buffer.out_offs ≤ buffer.in_offs then buffer.in_offs - buffer.out_offs
  else AESDCHAR_MAX_WRITE_OPERATIONS_SUPPORTED - buffer.out_offs + buffer.in_offs

/-- The cumulative-offset while loop of aesd_adjust_file_offset: sum entry
sizes from out_offs until the target slot is reached. -/
def cum_loop (entries : List aesd_buffer_entry) (current_index : Nat) :
    Nat → Nat → Nat
  | 0, _ => 0
  | fuel + 1, index =>
    if index = current_index then 0
    else (entries.getD index emptyEntry).size +
      cum_loop entries current_index fuel
        ((index + 1) % AESDCHAR_MAX_WRITE_OPERATIONS_SUPPORTED)

/-- aesd_adjust_file_offset: validate the command index against the entry
count and the byte offset against that entry's size, then set f_pos to the
cumulative offset.  -EINVAL is modelled as none; the successful case carries
the new file position (which the AESDCHAR_IOCSEEKTO ioctl then returns). -/
def aesd_adjust_file_offset (buffer : aesd_circular_buffer)
    (write_cmd write_cmd_offset : Nat) : Option Nat :=
  if buffer.full = false ∧ buffer.in_offs = buffer.out_offs then none
  else
    let count := entryCount buffer
    if count ≤ write_cmd then none
    else
      let current_index := (buffer.out_offs + write_cmd) % AESDCHAR_MAX_WRITE_OPERATIONS_SUPPORTED
      if (buffer.entry.getD current_index emptyEntry).size ≤ write_cmd_offset then none
      else
        some (cum_loop buffer.entry current_index
          AESDCHAR_MAX_WRITE_OPERATIONS_SUPPORTED buffer.out_offs + write_cmd_offset)

/-- aesd_read with the mutex and copy_to_user plumbing elided: locate the
entry containing f_pos, copy at most count bytes from that single entry,
advance the position by the bytes copied.  Result: (bytes copied, new f_pos);
the EOF case returns no bytes and leaves the position unchanged. -/
def aesd_read (buffer : aesd_circular_buffer) (f_pos count : Nat) :
    List Nat × Nat :=
  match aesd_circular_buffer_find_entry_offset_for_fpos buffer f_pos with
  | none => ([], f_pos)
  | some (idx, entry_offset) =>
    let e := buffer.entry.getD idx emptyEntry
    let bytes_to_copy := e.size - entry_offset
    let bytes_to_copy := if count < bytes_to_copy then count else bytes_to_copy
    ((e.buffptr.drop entry_offset).take bytes_to_copy, f_pos + bytes_to_copy)

/-- struct aesd_dev: the shared ring plus the pending assembly buffer
(temp_buffer, temp_buffer_size); mutex and cdev plumbing elided. -/
structure aesd_dev where
  circular_buffer : aesd_circular_buffer
  temp_buffer : List Nat
  temp_buffer_size : Nat
deriving DecidableEq, Repr

/-- aesd_write: scan the incoming data for a newline, allocate the combined
buffer (allocOk = false models kmalloc failure, which in the C code returns
-ENOMEM before any device state is touched), append the data to the pending
assembly buffer, and when a newline was found move the entire accumulated
buffer into the ring as one entry and reset the assembly buffer.  Result:
new device state and either the error code or (retval = count, new f_pos =
total size). -/
def aesd_write (allocOk : Bool) (dev : aesd_dev) (data : List Nat) :
    aesd_dev × Except Int (Nat × Nat) :=
  let found_newline := data.contains 10
  if allocOk = false then
    (dev, Except.error (-12))
  else
    let new_buffer := dev.temp_buffer ++ data
    let dev1 : aesd_dev :=
      { dev with temp_buffer := new_buffer
               , temp_buffer_size := dev.temp_buffer_size + data.length }
    if found_newline then
      let new_entry : aesd_buffer_entry :=
        { buffptr := dev1.temp_buffer, size := dev1.temp_buffer_size }
      let dev2 : aesd_dev :=
        { circular_buffer := aesd_circular_buffer_add_entry dev1.circular_buffer new_entry
        , temp_buffer := []
        , temp_buffer_size := 0 }
      (dev2, Except.ok (data.length, aesd_get_total_size dev2.circular_buffer))
    else
      (dev1, Except.ok (data.length, aesd_get_total_size dev1.circular_buffer))

/-- The representation invariant of the ring stated by the spec's data model:
the slot array has exactly capacity slots, both indices are in range, and the
full flag may be set only when the indices coincide. -/
def RingWF (b : aesd_circular_buffer) : Prop :=
  b.entry.length = AESDCHAR_MAX_WRITE_OPERATIONS_SUPPORTED ∧
  b.in_offs < AESDCHAR_MAX_WRITE_OPERATIONS_SUPPORTED ∧
  b.out_offs < AESDCHAR_MAX_WRITE_OPERATIONS_SUPPORTED ∧
  (b.full = true → b.in_offs = b.out_offs)

instance (b : aesd_circular_buffer) : Decidable (RingWF b) := by
  unfold RingWF; infer_instance

/-- The logical contents of the ring: the entries read from out_offs
oldest-first, stopping before in_offs. -/
def logicalEntries (b : aesd_circular_buffer) : List aesd_buffer_entry :=
  (List.range (entryCount b)).map
    (fun i => b.entry.getD ((b.out_offs + i) % AESDCHAR_MAX_WRITE_OPERATIONS_SUPPORTED) emptyEntry)

/-- Sum of the sizes of a list of entries. -/
def sumSizes (l : List aesd_buffer_entry) : Nat :=
  l.foldr (fun e acc => e.size + acc) 0

/-- Each committed entry's recorded size matches its byte buffer — true of
every entry the driver constructs (size is set to the assembled length). -/
def SizesWF (b : aesd_circular_buffer) : Prop :=
  ∀ e ∈ logicalEntries b, e.buffptr.length = e.size

instance (b : aesd_circular_buffer) : Decidable (SizesWF b) := by
  unfold SizesWF; infer_instance

/-- Reference walk over the logical entry list: the entry containing the
offset is the first whose cumulative range covers it; returns the logical
index and the local offset. -/
def walkFind : List aesd_buffer_entry → Nat → Option (Nat × Nat)
  | [], _ => none
  | e :: rest, off =>
    if off < e.size then some (0, off)
    else (walkFind rest (off - e.size)).map (fun p => (p.1 + 1, p.2))

/-! ### Socket server model (aesdsocket.c) -/

/-- First index of a byte value in a list (the C strchr / memchr search,
restricted to the record being parsed). -/
def memchrIdx : List Nat → Nat → Option Nat
  | [], _ => none
  | c :: rest, target =>
    if c = target then some 0 else (memchrIdx rest target).map (fun i => i + 1)

/-- C isspace over byte values: space and the five control whitespace bytes. -/
def isSpaceByte (c : Nat) : Bool := c = 32 || (9 ≤ c && c ≤ 13)

/-- ASCII decimal digit test. -/
def isDigitByte (c : Nat) : Bool := 48 ≤ c && c ≤ 57

/-- Number of leading whitespace bytes (strtoul's initial skip). -/
def skipSpaces : List Nat → Nat
  | [] => 0
  | c :: rest => if isSpaceByte c then skipSpaces rest + 1 else 0

/-- Greedy decimal digit run: accumulated exact value and number of digits
consumed. -/
def digitRunAux : List Nat → Nat → Nat → Nat × Nat
  | [], acc, cnt => (acc, cnt)
  | c :: rest, acc, cnt =>
    if isDigitByte c then digitRunAux rest (acc * 10 + (c - 48)) (cnt + 1)
    else (acc, cnt)

/-- ULONG_MAX for the 64-bit unsigned long strtoul returns. -/
def ULONG_MAX : Nat := 18446744073709551615

/-- strtoul(nptr, &endptr, 10) on a byte list: skip leading whitespace,
accept one optional sign, consume a greedy digit run.  Result is
(value, consumed) where consumed is the distance from nptr to endptr —
0 when no digits were found (endptr = nptr), otherwise whitespace + sign +
digits.  A '-' negates the value in unsigned arithmetic; a value outside
unsigned long range yields ULONG_MAX (the ERANGE clamp). -/
def strtoulModel (l : List Nat) : Nat × Nat :=
  let ws := skipSpaces l
  let rest1 := l.drop ws
  let signLen :=
    match rest1 with
    | c :: _ => if c = 45 ∨ c = 43 then 1 else 0
    | [] => 0
  let neg : Bool :=
    match rest1 with
    | c :: _ => c == 45
    | [] => false
  let rest2 := rest1.drop signLen
  let p := digitRunAux rest2 0 0
  if p.2 = 0 then (0, 0)
  else
    let v :=
      if p.1 ≤ ULONG_MAX then
        if neg then ((ULONG_MAX + 1) - p.1) % (ULONG_MAX + 1) else p.1
      else ULONG_MAX
    (v, ws + signLen + p.2)

/-- The byte values of the literal "AESDCHAR_IOCSEEKTO:". -/
def pfxBytes : List Nat :=
  [65, 69, 83, 68, 67, 72, 65, 82, 95, 73, 79, 67, 83, 69, 69, 75, 84, 79, 58]

/-- parse_ioctl_seek_command: minimum length 23, trailing newline, literal
token, first integer must end exactly at the first comma, second integer
must end exactly at the final newline; the outputs are truncated to
unsigned int (32-bit). -/
def parse_ioctl_seek_command (buffer : List Nat) : Option (Nat × Nat) :=
  let length := buffer.length
  if length < 23 then none
  else if buffer.getD (length - 1) 0 ≠ 10 then none
  else if buffer.take 19 ≠ pfxBytes then none
  else
    let values_start := buffer.drop 19
    match memchrIdx values_start 44 with
    | none => none
    | some commaIdx =>
      let px := strtoulModel values_start
      if px.2 ≠ commaIdx then none
      else
        let py := strtoulModel (values_start.drop (commaIdx + 1))
        if commaIdx + 1 + py.2 ≠ length - 19 - 1 then none
        else some (px.1 % 4294967296, py.1 % 4294967296)

/-- The record-processing loop of handle_client for one received chunk:
while a newline is present, slice off the packet through it; a packet that
parses as a seek command drives the ioctl/read-back path (no append), any
other packet is appended to the backing file; after the loop, leftover
bytes with no newline are appended to the file and the receive buffer is
emptied.  State carried: (receive buffer contents, backing file contents).
Each iteration removes at least one byte, so fuel = length + 1 is exact. -/
def processChunk : Nat → List Nat → List Nat → List Nat × List Nat
  | 0, buffer, file => (buffer, file)
  | fuel + 1, buffer, file =>
    match memchrIdx buffer 10 with
    | some nlIdx =>
      let packetLen := nlIdx + 1
      let packet := buffer.take packetLen
      let file2 :=
        if (parse_ioctl_seek_command packet).isSome then file else file ++ packet
      processChunk fuel (buffer.drop packetLen) file2
    | none =>
      if 0 < buffer.length then ([], file ++ buffer) else (buffer, file)

/-- One pass of handle_client's data-received branch over a chunk whose
bytes now form the receive buffer. -/
def handle_chunk (buffer file : List Nat) : List Nat × List Nat :=
  processChunk (buffer.length + 1) buffer file

/-- The cnt slots the ring walks from start (wrapping modulo capacity). -/
def slotsFrom (entries : List aesd_buffer_entry) (start cnt : Nat) :
    List aesd_buffer_entry :=
  (List.range cnt).map (fun j => entries.getD ((start + j) % 10) emptyEntry)

/-- The abstract bounded push on logical contents. -/
def pushBounded (l : List aesd_buffer_entry) (e : aesd_buffer_entry) :
    List aesd_buffer_entry :=
  if l.length = 10 then l.tail ++ [e] else l ++ [e]

/-- Concrete sample entries and states used to instantiate the theorems. -/
def entAA : aesd_buffer_entry := { buffptr := [97, 97, 10], size := 3 }

def entBB : aesd_buffer_entry := { buffptr := [98, 98, 10], size := 3 }

/-- The ring after committing "aa\n" then "bb\n" to a fresh device. -/
def bTwo : aesd_circular_buffer :=
  aesd_circular_buffer_add_entry
    (aesd_circular_buffer_add_entry aesd_circular_buffer_init entAA) entBB

/-- A structurally wellformed ring whose oldest logical entry has size 0. -/
def bZero : aesd_circular_buffer :=
  { entry := [{ buffptr := [], size := 0 }, entAA, emptyEntry, emptyEntry,
      emptyEntry, emptyEntry, emptyEntry, emptyEntry, emptyEntry, emptyEntry]
  , in_offs := 2, out_offs := 0, full := false }

/-- A freshly initialised device. -/
def devEmpty : aesd_dev :=
  { circular_buffer := aesd_circular_buffer_init
  , temp_buffer := []
  , temp_buffer_size := 0 }

/-- A device with two committed entries and one pending assembly byte. -/
def devTmp : aesd_dev :=
  { circular_buffer := bTwo, temp_buffer := [104], temp_buffer_size := 1 }

/-! ### Helper lemmas -/

lemma maxw_def : AESDCHAR_MAX_WRITE_OPERATIONS_SUPPORTED = 10 := rfl

lemma getD_set_self {l : List aesd_buffer_entry} {i : Nat} {e d : aesd_buffer_entry}
    (h : i < l.length) : (l.set i e).getD i d = e := by
  simp [List.getD, List.getElem?_set_self, h]

lemma getD_set_ne {l : List aesd_buffer_entry} {i j : Nat} {e d : aesd_buffer_entry}
    (h : i ≠ j) : (l.set i e).getD j d = l.getD j d := by
  simp [List.getD, List.getElem?_set_ne h]

lemma getD_map_range {f : Nat → aesd_buffer_entry} {n i : Nat} {d : aesd_buffer_entry}
    (h : i < n) : ((List.range n).map f).getD i d = f i := by
  rw [List.getD_eq_getElem?_getD]
  simp [List.getElem?_map, List.getElem?_range h]

lemma logical_length (b : aesd_circular_buffer) :
    (logicalEntries b).length = entryCount b := by
  simp [logicalEntries]

lemma logical_getD {b : aesd_circular_buffer} {i : Nat} (h : i < entryCount b) :
    (logicalEntries b).getD i emptyEntry =
      b.entry.getD ((b.out_offs + i) % AESDCHAR_MAX_WRITE_OPERATIONS_SUPPORTED) emptyEntry := by
  unfold logicalEntries
  exact getD_map_range h

lemma sumSizes_nil : sumSizes [] = 0 := rfl

lemma sumSizes_cons (e : aesd_buffer_entry) (l : List aesd_buffer_entry) :
    sumSizes (e :: l) = e.size + sumSizes l := rfl

lemma sumSizes_append (l m : List aesd_buffer_entry) :
    sumSizes (l ++ m) = sumSizes l + sumSizes m := by
  induction l with
  | nil => simp [sumSizes_nil]
  | cons e l ih => simp [sumSizes_cons, ih]; omega

lemma walkFind_none_iff (l : List aesd_buffer_entry) (off : Nat) :
    walkFind l off = none ↔ sumSizes l ≤ off := by
  induction l generalizing off with
  | nil => simp [walkFind, sumSizes_nil]
  | cons e rest ih =>
    simp only [walkFind, sumSizes_cons]
    by_cases h : off < e.size
    · simp [h]; omega
    · simp [h, Option.map_eq_none, ih]; omega

lemma walkFind_some_spec (l : List aesd_buffer_entry) (off i loc : Nat)
    (h : walkFind l off = some (i, loc)) :
    i < l.length ∧ sumSizes (l.take i) ≤ off ∧
      off < sumSizes (l.take i) + (l.getD i emptyEntry).size ∧
      loc = off - sumSizes (l.take i) := by
  induction l generalizing off i loc with
  | nil => simp [walkFind] at h
  | cons e rest ih =>
    simp only [walkFind] at h
    by_cases hoff : off < e.size
    · simp [hoff] at h
      obtain ⟨hi, hloc⟩ := h
      subst hi; subst hloc
      simp [sumSizes_nil, List.getD]
      omega
    · rw [if_neg hoff] at h
      rcases hw : walkFind rest (off - e.size) with _ | ⟨p1, p2⟩
      · rw [hw] at h; exact Option.noConfusion h
      · rw [hw] at h
        simp only [Option.map_some'] at h
        obtain ⟨hi, hloc⟩ := Prod.mk.injEq .. ▸ (Option.some.injEq .. ▸ h :
          (p1 + 1, p2) = (i, loc))
        obtain ⟨hlt, hle, hub, hl⟩ := ih (off - e.size) p1 p2 hw
        subst hi; subst hloc
        have hesz : e.size ≤ off := by omega
        refine ⟨by simpa using Nat.succ_lt_succ hlt, ?_, ?_, ?_⟩ <;>
          simp only [List.take_succ_cons, sumSizes_cons, List.getD_cons_succ] <;> omega

lemma walkFind_boundary (l : List aesd_buffer_entry) (i : Nat)
    (hi : i < l.length) (hpos : 0 < (l.getD i emptyEntry).size) :
    walkFind l (sumSizes (l.take i)) = some (i, 0) := by
  induction l generalizing i with
  | nil => simp at hi
  | cons e rest ih =>
    cases i with
    | zero =>
      simp [List.getD] at hpos
      simp [walkFind, sumSizes_nil, hpos]
    | succ j =>
      have hj : j < rest.length := by simpa using hi
      have hpos2 : 0 < (rest.getD j emptyEntry).size := by
        simpa [List.getD_cons_succ] using hpos
      have hrec := ih j hj hpos2
      simp only [List.take_succ_cons, walkFind, sumSizes_cons]
      have hnlt : ¬ (e.size + sumSizes (rest.take j) < e.size) := by omega
      simp [sumSizes_cons, hnlt, Nat.add_sub_cancel_left, hrec]


lemma slotsFrom_zero (entries : List aesd_buffer_entry) (start : Nat) :
    slotsFrom entries start 0 = [] := rfl

lemma slotsFrom_succ (entries : List aesd_buffer_entry) (start c : Nat) :
    slotsFrom entries start (c + 1) =
      entries.getD (start % 10) emptyEntry :: slotsFrom entries ((start + 1) % 10) c := by
  unfold slotsFrom
  rw [List.range_succ_eq_map, List.map_cons, List.map_map]
  congr 1
  refine List.map_congr_left ?_
  intro j hj
  simp only [Function.comp_apply]
  congr 1
  omega

lemma logical_eq_slots (b : aesd_circular_buffer) :
    logicalEntries b = slotsFrom b.entry b.out_offs (entryCount b) := by
  simp [logicalEntries, slotsFrom, maxw_def]

lemma slotsFrom_length (entries : List aesd_buffer_entry) (start cnt : Nat) :
    (slotsFrom entries start cnt).length = cnt := by
  simp [slotsFrom]

/-- The find loop visits exactly the cnt slots from start (wrapping modulo
capacity) before reaching in_offs, and behaves as the reference walk over
those slots. -/
lemma find_loop_spec (entries : List aesd_buffer_entry) (inn off : Nat) :
    ∀ (cnt fuel start cum : Nat), 0 < cnt → cnt ≤ fuel → start < 10 → cum ≤ off →
      (start + cnt) % 10 = inn →
      (∀ j, 0 < j → j < cnt → (start + j) % 10 ≠ inn) →
      find_loop entries inn off fuel start cum =
        (walkFind (slotsFrom entries start cnt) (off - cum)).map
          (fun p => ((start + p.1) % 10, p.2)) := by
  intro cnt
  induction cnt with
  | zero => intro fuel start cum h0; omega
  | succ c ih =>
    intro fuel start cum hpos hle hstart hcum hend hmid
    cases fuel with
    | zero => omega
    | succ f =>
      have hstartmod : start % 10 = start := Nat.mod_eq_of_lt hstart
      rw [slotsFrom_succ, hstartmod]
      rw [show find_loop entries inn off (f + 1) start cum =
          (if off < cum + (entries.getD start emptyEntry).size then
            some (start, off - cum)
          else if (start + 1) % AESDCHAR_MAX_WRITE_OPERATIONS_SUPPORTED = inn then none
          else find_loop entries inn off f
            ((start + 1) % AESDCHAR_MAX_WRITE_OPERATIONS_SUPPORTED)
            (cum + (entries.getD start emptyEntry).size)) from rfl]
      simp only [maxw_def]
      by_cases hfound : off < cum + (entries.getD start emptyEntry).size
      · rw [if_pos hfound]
        have hlt : off - cum < (entries.getD start emptyEntry).size := by omega
        rw [show walkFind (entries.getD start emptyEntry ::
            slotsFrom entries ((start + 1) % 10) c) (off - cum) =
            (if off - cum < (entries.getD start emptyEntry).size then
              some (0, off - cum)
            else (walkFind (slotsFrom entries ((start + 1) % 10) c)
              (off - cum - (entries.getD start emptyEntry).size)).map
                (fun p => (p.1 + 1, p.2))) from rfl]
        rw [if_pos hlt, Option.map_some']
        have : (start + 0) % 10 = start := by omega
        rw [this]
      · rw [if_neg hfound]
        have hnlt : ¬ (off - cum < (entries.getD start emptyEntry).size) := by omega
        rw [show walkFind (entries.getD start emptyEntry ::
            slotsFrom entries ((start + 1) % 10) c) (off - cum) =
            (if off - cum < (entries.getD start emptyEntry).size then
              some (0, off - cum)
            else (walkFind (slotsFrom entries ((start + 1) % 10) c)
              (off - cum - (entries.getD start emptyEntry).size)).map
                (fun p => (p.1 + 1, p.2))) from rfl]
        rw [if_neg hnlt]
        cases c with
        | zero =>
          have : (start + 1) % 10 = inn := by simpa using hend
          rw [if_pos this]
          simp [slotsFrom_zero, walkFind]
        | succ d =>
          have hne : (start + 1) % 10 ≠ inn := hmid 1 (by omega) (by omega)
          rw [if_neg hne]
          have hrec := ih f ((start + 1) % 10) (cum + (entries.getD start emptyEntry).size)
            (by omega) (by omega) (by omega) (by omega)
            (by rw [Nat.mod_add_mod]; omega)
            (by
              intro j hj0 hjc
              rw [Nat.mod_add_mod]
              have := hmid (j + 1) (by omega) (by omega)
              omega)
          rw [hrec]
          have hsub : off - cum - (entries.getD start emptyEntry).size =
              off - (cum + (entries.getD start emptyEntry).size) := by omega
          rw [hsub, Option.map_map]
          rcases hw : walkFind (slotsFrom entries ((start + 1) % 10) (d + 1))
              (off - (cum + (entries.getD start emptyEntry).size)) with _ | p
          · rfl
          · simp only [Option.map_some', Function.comp_apply]
            have : ((start + 1) % 10 + p.1) % 10 = (start + (p.1 + 1)) % 10 := by
              rw [Nat.mod_add_mod]; omega
            rw [this]

/-- The size loop sums exactly the sizes of the cnt slots from start to
in_offs. -/
lemma size_loop_spec (entries : List aesd_buffer_entry) (inn : Nat) :
    ∀ (cnt fuel start : Nat), 0 < cnt → cnt ≤ fuel → start < 10 →
      (start + cnt) % 10 = inn →
      (∀ j, 0 < j → j < cnt → (start + j) % 10 ≠ inn) →
      size_loop entries inn fuel start = sumSizes (slotsFrom entries start cnt) := by
  intro cnt
  induction cnt with
  | zero => intro fuel start h0; omega
  | succ c ih =>
    intro fuel start hpos hle hstart hend hmid
    cases fuel with
    | zero => omega
    | succ f =>
      have hstartmod : start % 10 = start := Nat.mod_eq_of_lt hstart
      rw [slotsFrom_succ, hstartmod, sumSizes_cons]
      rw [show size_loop entries inn (f + 1) start =
          (if (start + 1) % AESDCHAR_MAX_WRITE_OPERATIONS_SUPPORTED = inn then
            (entries.getD start emptyEntry).size
          else (entries.getD start emptyEntry).size +
            size_loop entries inn f ((start + 1) % AESDCHAR_MAX_WRITE_OPERATIONS_SUPPORTED))
          from rfl]
      simp only [maxw_def]
      cases c with
      | zero =>
        have : (start + 1) % 10 = inn := by simpa using hend
        rw [if_pos this]
        simp [slotsFrom_zero, sumSizes_nil]
      | succ d =>
        have hne : (start + 1) % 10 ≠ inn := hmid 1 (by omega) (by omega)
        rw [if_neg hne]
        have hrec := ih f ((start + 1) % 10) (by omega) (by omega) (by omega)
          (by rw [Nat.mod_add_mod]; omega)
          (by
            intro j hj0 hjc
            rw [Nat.mod_add_mod]
            have := hmid (j + 1) (by omega) (by omega)
            omega)
        rw [hrec]

/-- The cumulative-offset loop of aesd_adjust_file_offset sums the sizes of
the first steps slots from start when the target lies exactly steps slots
ahead. -/
lemma cum_loop_spec (entries : List aesd_buffer_entry) :
    ∀ (steps fuel start target : Nat), steps ≤ fuel → start < 10 →
      target = (start + steps) % 10 →
      (∀ j, j < steps → (start + j) % 10 ≠ target) →
      cum_loop entries target fuel start = sumSizes (slotsFrom entries start steps) := by
  intro steps
  induction steps with
  | zero =>
    intro fuel start target hle hstart htgt hmid
    have heq : start = target := by omega
    cases fuel with
    | zero => rfl
    | succ f =>
      rw [show cum_loop entries target (f + 1) start =
          (if start = target then 0
          else (entries.getD start emptyEntry).size +
            cum_loop entries target f
              ((start + 1) % AESDCHAR_MAX_WRITE_OPERATIONS_SUPPORTED)) from rfl]
      rw [if_pos heq]
      rfl
  | succ c ih =>
    intro fuel start target hle hstart htgt hmid
    cases fuel with
    | zero => omega
    | succ f =>
      have hstartmod : start % 10 = start := Nat.mod_eq_of_lt hstart
      have hne : start ≠ target := by
        have := hmid 0 (by omega)
        omega
      rw [slotsFrom_succ, hstartmod, sumSizes_cons]
      rw [show cum_loop entries target (f + 1) start =
          (if start = target then 0
          else (entries.getD start emptyEntry).size +
            cum_loop entries target f
              ((start + 1) % AESDCHAR_MAX_WRITE_OPERATIONS_SUPPORTED)) from rfl]
      rw [if_neg hne]
      simp only [maxw_def]
      have hrec := ih f ((start + 1) % 10) target (by omega) (by omega)
        (by rw [Nat.mod_add_mod]; omega)
        (by
          intro j hjc
          rw [Nat.mod_add_mod]
          have := hmid (j + 1) (by omega)
          omega)
      rw [hrec]


lemma slotsFrom_take (entries : List aesd_buffer_entry) (start n m : Nat) :
    (slotsFrom entries start n).take m = slotsFrom entries start (min m n) := by
  unfold slotsFrom
  rw [← List.map_take, List.take_range]

lemma entryCount_empty {b : aesd_circular_buffer} (hb : b.full = false)
    (heq : b.in_offs = b.out_offs) : entryCount b = 0 := by
  simp [entryCount, hb, heq]

/-- For a wellformed nonempty ring, the entry count is between 1 and the
capacity, and walking that many slots from out_offs lands exactly on
in_offs, never hitting it earlier. -/
lemma count_facts (b : aesd_circular_buffer) (h : RingWF b)
    (hne : ¬ (b.full = false ∧ b.in_offs = b.out_offs)) :
    0 < entryCount b ∧ entryCount b ≤ 10 ∧
      (b.out_offs + entryCount b) % 10 = b.in_offs ∧
      ∀ j, 0 < j → j < entryCount b → (b.out_offs + j) % 10 ≠ b.in_offs := by
  obtain ⟨hlen, hin, hout, hfull⟩ := h
  rw [maxw_def] at hin hout
  simp only [entryCount, maxw_def]
  split_ifs with hb hord
  · have heq : b.in_offs = b.out_offs := hfull hb
    refine ⟨by omega, by omega, by omega, ?_⟩
    intro j hj0 hj10
    omega
  · have hb2 : b.full = false := by
      cases hfb : b.full
      · rfl
      · exact absurd hfb hb
    have hne2 : b.in_offs ≠ b.out_offs := fun hc => hne ⟨hb2, hc⟩
    refine ⟨by omega, by omega, by omega, ?_⟩
    intro j hj0 hjc
    omega
  · have hb2 : b.full = false := by
      cases hfb : b.full
      · rfl
      · exact absurd hfb hb
    have hne2 : b.in_offs ≠ b.out_offs := fun hc => hne ⟨hb2, hc⟩
    refine ⟨by omega, by omega, by omega, ?_⟩
    intro j hj0 hjc
    omega

/-- The C offset search agrees with the reference walk over the logical
entry list (the returned slot index is the logical index mapped back into
the array). -/
lemma find_eq_walk (b : aesd_circular_buffer) (h : RingWF b) (off : Nat) :
    aesd_circular_buffer_find_entry_offset_for_fpos b off =
      (walkFind (logicalEntries b) off).map
        (fun p => ((b.out_offs + p.1) % 10, p.2)) := by
  have h2 := h
  obtain ⟨hlen, hin, hout, hfull⟩ := h2
  rw [maxw_def] at hin hout
  rw [logical_eq_slots]
  unfold aesd_circular_buffer_find_entry_offset_for_fpos
  by_cases hemp : b.full = false ∧ b.in_offs = b.out_offs
  · rw [if_pos hemp, entryCount_empty hemp.1 hemp.2, slotsFrom_zero]
    rfl
  · rw [if_neg hemp]
    obtain ⟨hc0, hc10, hcend, hcmid⟩ := count_facts b h hemp
    simp only [maxw_def]
    rw [find_loop_spec b.entry b.in_offs off (entryCount b) 10 b.out_offs 0
      hc0 hc10 hout (Nat.zero_le off) hcend hcmid]
    rw [Nat.sub_zero]

/-- aesd_get_total_size computes the sum of the logical entries' sizes. -/
lemma total_eq_sum (b : aesd_circular_buffer) (h : RingWF b) :
    aesd_get_total_size b = sumSizes (logicalEntries b) := by
  have h2 := h
  obtain ⟨hlen, hin, hout, hfull⟩ := h2
  rw [maxw_def] at hin hout
  rw [logical_eq_slots]
  unfold aesd_get_total_size
  by_cases hemp : b.full = false ∧ b.in_offs = b.out_offs
  · rw [if_pos hemp, entryCount_empty hemp.1 hemp.2, slotsFrom_zero]
    rfl
  · rw [if_neg hemp]
    obtain ⟨hc0, hc10, hcend, hcmid⟩ := count_facts b h hemp
    simp only [maxw_def]
    exact size_loop_spec b.entry b.in_offs (entryCount b) 10 b.out_offs
      hc0 hc10 hout hcend hcmid

/-- Closed-form characterisation of aesd_adjust_file_offset on wellformed
rings. -/
lemma adjust_eq (b : aesd_circular_buffer) (h : RingWF b) (wc wco : Nat) :
    aesd_adjust_file_offset b wc wco =
      if wc < entryCount b ∧ wco < ((logicalEntries b).getD wc emptyEntry).size then
        some (sumSizes ((logicalEntries b).take wc) + wco)
      else none := by
  have h2 := h
  obtain ⟨hlen, hin, hout, hfull⟩ := h2
  rw [maxw_def] at hin hout
  unfold aesd_adjust_file_offset
  by_cases hemp : b.full = false ∧ b.in_offs = b.out_offs
  · rw [if_pos hemp]
    have hc : entryCount b = 0 := entryCount_empty hemp.1 hemp.2
    rw [if_neg]
    intro hcond
    omega
  · rw [if_neg hemp]
    obtain ⟨hc0, hc10, hcend, hcmid⟩ := count_facts b h hemp
    by_cases h1 : entryCount b ≤ wc
    · rw [if_pos h1, if_neg]
      intro hcond
      omega
    · rw [if_neg h1]
      have hwc : wc < entryCount b := by omega
      show (if (b.entry.getD ((b.out_offs + wc) % AESDCHAR_MAX_WRITE_OPERATIONS_SUPPORTED)
            emptyEntry).size ≤ wco then none
          else some (cum_loop b.entry
            ((b.out_offs + wc) % AESDCHAR_MAX_WRITE_OPERATIONS_SUPPORTED)
            AESDCHAR_MAX_WRITE_OPERATIONS_SUPPORTED b.out_offs + wco)) = _
      have hslot : b.entry.getD ((b.out_offs + wc) % AESDCHAR_MAX_WRITE_OPERATIONS_SUPPORTED)
          emptyEntry = (logicalEntries b).getD wc emptyEntry := (logical_getD hwc).symm
      rw [hslot]
      by_cases h2 : ((logicalEntries b).getD wc emptyEntry).size ≤ wco
      · rw [if_pos h2, if_neg]
        intro hcond
        omega
      · rw [if_neg h2, if_pos ⟨hwc, by omega⟩]
        simp only [maxw_def]
        rw [cum_loop_spec b.entry wc 10 b.out_offs ((b.out_offs + wc) % 10)
          (by omega) hout rfl
          (by
            intro j hj
            omega)]
        rw [logical_eq_slots, slotsFrom_take]
        have : min wc (entryCount b) = wc := by omega
        rw [this]


lemma slotsFrom_snoc (entries : List aesd_buffer_entry) (start n : Nat) :
    slotsFrom entries start (n + 1) =
      slotsFrom entries start n ++ [entries.getD ((start + n) % 10) emptyEntry] := by
  unfold slotsFrom
  rw [List.range_succ, List.map_append]
  rfl

lemma slotsFrom_set_ne (entries : List aesd_buffer_entry) (start cnt i : Nat)
    (x : aesd_buffer_entry) (h : ∀ j, j < cnt → (start + j) % 10 ≠ i) :
    slotsFrom (entries.set i x) start cnt = slotsFrom entries start cnt := by
  unfold slotsFrom
  refine List.map_congr_left ?_
  intro j hj
  rw [List.mem_range] at hj
  exact getD_set_ne (fun hc => h j hj hc.symm)

lemma add_entry_entry (b : aesd_circular_buffer) (e : aesd_buffer_entry) :
    (aesd_circular_buffer_add_entry b e).entry = b.entry.set b.in_offs e := rfl

lemma add_entry_in (b : aesd_circular_buffer) (e : aesd_buffer_entry) :
    (aesd_circular_buffer_add_entry b e).in_offs = (b.in_offs + 1) % 10 := rfl

lemma add_entry_out (b : aesd_circular_buffer) (e : aesd_buffer_entry) :
    (aesd_circular_buffer_add_entry b e).out_offs =
      if b.full then (b.out_offs + 1) % 10 else b.out_offs := rfl

lemma add_entry_full (b : aesd_circular_buffer) (e : aesd_buffer_entry) :
    (aesd_circular_buffer_add_entry b e).full =
      if (b.in_offs + 1) % 10 =
          (if b.full then (b.out_offs + 1) % 10 else b.out_offs) then true
      else b.full := rfl

/-- add_entry preserves the representation invariant. -/
lemma add_entry_wf (b : aesd_circular_buffer) (e : aesd_buffer_entry)
    (h : RingWF b) : RingWF (aesd_circular_buffer_add_entry b e) := by
  obtain ⟨hlen, hin, hout, hfull⟩ := h
  rw [maxw_def] at hin hout
  refine ⟨?_, ?_, ?_, ?_⟩
  · rw [add_entry_entry, List.length_set, hlen]
  · rw [add_entry_in, maxw_def]
    omega
  · rw [add_entry_out, maxw_def]
    split_ifs <;> omega
  · rw [add_entry_full, add_entry_in, add_entry_out]
    cases hbf : b.full with
    | true =>
      have heq := hfull hbf
      intro _
      have hred : (if ((true : Bool) = true) then (b.out_offs + 1) % 10 else b.out_offs) =
          (b.out_offs + 1) % 10 := if_pos rfl
      rw [hred]
      omega
    | false =>
      have hred : (if ((false : Bool) = true) then (b.out_offs + 1) % 10 else b.out_offs) =
          b.out_offs := if_neg (by simp)
      rw [hred]
      intro hf
      by_cases hc : (b.in_offs + 1) % 10 = b.out_offs
      · exact hc
      · rw [if_neg hc] at hf
        exact absurd hf (by simp)

lemma count_le_of_not_full {b : aesd_circular_buffer} (h : RingWF b)
    (hb : b.full = false) : entryCount b ≤ 9 := by
  obtain ⟨hlen, hin, hout, hfull⟩ := h
  rw [maxw_def] at hin hout
  simp [entryCount, maxw_def, hb]
  split_ifs <;> omega

lemma count_full {b : aesd_circular_buffer} (hb : b.full = true) :
    entryCount b = 10 := by
  simp [entryCount, hb, maxw_def]

lemma count_end_of_not_full {b : aesd_circular_buffer} (h : RingWF b)
    (hb : b.full = false) : (b.out_offs + entryCount b) % 10 = b.in_offs := by
  obtain ⟨hlen, hin, hout, hfull⟩ := h
  rw [maxw_def] at hin hout
  simp [entryCount, maxw_def, hb]
  split_ifs <;> omega

lemma mid_ne_of_not_full {b : aesd_circular_buffer} (h : RingWF b)
    (hb : b.full = false) :
    ∀ j, j < entryCount b → (b.out_offs + j) % 10 ≠ b.in_offs := by
  obtain ⟨hlen, hin, hout, hfull⟩ := h
  rw [maxw_def] at hin hout
  simp [entryCount, maxw_def, hb]
  intro j
  split_ifs <;> omega

/-- The abstraction step: one insert appends the entry to the logical
contents, dropping the oldest entry when the ring was already full. -/
lemma step_add (b : aesd_circular_buffer) (e : aesd_buffer_entry) (h : RingWF b) :
    logicalEntries (aesd_circular_buffer_add_entry b e) =
      (if entryCount b = 10 then (logicalEntries b).tail else logicalEntries b) ++ [e] := by
  have h2 := h
  obtain ⟨hlen, hin, hout, hfull⟩ := h2
  rw [maxw_def] at hin hout
  have hlen10 : b.entry.length = 10 := by rw [hlen, maxw_def]
  cases hbf : b.full with
  | true =>
    have heq : b.in_offs = b.out_offs := hfull hbf
    have hc10 : entryCount b = 10 := count_full hbf
    rw [if_pos hc10]
    have hcadd : entryCount (aesd_circular_buffer_add_entry b e) = 10 := by
      apply count_full
      rw [add_entry_full, hbf]
      simp [ite_self]
    rw [logical_eq_slots, logical_eq_slots, hcadd, hc10, add_entry_entry,
      add_entry_out, hbf, if_pos rfl]
    have hsnoc : slotsFrom (b.entry.set b.in_offs e) ((b.out_offs + 1) % 10) 10 =
        slotsFrom (b.entry.set b.in_offs e) ((b.out_offs + 1) % 10) 9 ++
          [(b.entry.set b.in_offs e).getD (((b.out_offs + 1) % 10 + 9) % 10) emptyEntry] :=
      slotsFrom_snoc _ _ 9
    have hdest : slotsFrom b.entry b.out_offs 10 =
        b.entry.getD (b.out_offs % 10) emptyEntry ::
          slotsFrom b.entry ((b.out_offs + 1) % 10) 9 :=
      slotsFrom_succ _ _ 9
    rw [hsnoc, hdest, List.tail_cons]
    have hlast : ((b.out_offs + 1) % 10 + 9) % 10 = b.in_offs := by omega
    rw [hlast, getD_set_self (by omega)]
    congr 1
    apply slotsFrom_set_ne
    intro j hj
    omega
  | false =>
    have hc9 : entryCount b ≤ 9 := count_le_of_not_full h hbf
    rw [if_neg (by omega)]
    have hcout : (aesd_circular_buffer_add_entry b e).out_offs = b.out_offs := by
      rw [add_entry_out, hbf]
      rfl
    have hcountb : entryCount b =
        if b.out_offs ≤ b.in_offs then b.in_offs - b.out_offs
        else 10 - b.out_offs + b.in_offs := by
      simp [entryCount, maxw_def, hbf]
    have hf2 : ((aesd_circular_buffer_add_entry b e).full = true) ↔
        (b.in_offs + 1) % 10 = b.out_offs := by
      rw [add_entry_full, hbf]
      simp
    have hcadd : entryCount (aesd_circular_buffer_add_entry b e) = entryCount b + 1 := by
      by_cases hc : (b.in_offs + 1) % 10 = b.out_offs
      · rw [count_full (hf2.mpr hc), hcountb]
        split_ifs <;> omega
      · have hfull3 : (aesd_circular_buffer_add_entry b e).full = false := by
          cases hff : (aesd_circular_buffer_add_entry b e).full
          · rfl
          · exact absurd (hf2.mp hff) hc
        have hshape : entryCount (aesd_circular_buffer_add_entry b e) =
            if (aesd_circular_buffer_add_entry b e).out_offs ≤
                (aesd_circular_buffer_add_entry b e).in_offs then
              (aesd_circular_buffer_add_entry b e).in_offs -
                (aesd_circular_buffer_add_entry b e).out_offs
            else 10 - (aesd_circular_buffer_add_entry b e).out_offs +
              (aesd_circular_buffer_add_entry b e).in_offs := by
          simp [entryCount, maxw_def, hfull3]
        rw [hshape, add_entry_in, hcout, hcountb]
        split_ifs <;> omega
    rw [logical_eq_slots, logical_eq_slots, hcadd, hcout, add_entry_entry,
      slotsFrom_snoc]
    have hend := count_end_of_not_full h hbf
    rw [hend, getD_set_self (by omega)]
    congr 1
    apply slotsFrom_set_ne
    intro j hj
    exact mid_ne_of_not_full h hbf j hj

lemma pushBounded_step (b : aesd_circular_buffer) (e : aesd_buffer_entry)
    (h : RingWF b) :
    logicalEntries (aesd_circular_buffer_add_entry b e) =
      pushBounded (logicalEntries b) e := by
  rw [step_add b e h]
  unfold pushBounded
  rw [logical_length]
  split_ifs <;> rfl

/-- Simulation: folding inserts over the ring tracks folding pushBounded
over the logical contents. -/
lemma fold_sim (es : List aesd_buffer_entry) :
    ∀ (b : aesd_circular_buffer), RingWF b →
      RingWF (es.foldl aesd_circular_buffer_add_entry b) ∧
      logicalEntries (es.foldl aesd_circular_buffer_add_entry b) =
        es.foldl pushBounded (logicalEntries b) := by
  induction es with
  | nil => intro b hb; exact ⟨hb, rfl⟩
  | cons e es ih =>
    intro b hb
    simp only [List.foldl_cons]
    obtain ⟨ih1, ih2⟩ := ih (aesd_circular_buffer_add_entry b e) (add_entry_wf b e hb)
    exact ⟨ih1, by rw [ih2, pushBounded_step b e hb]⟩

/-- Folding the abstract push from empty retains exactly the most recent
10 elements. -/
lemma pushBounded_fold (es : List aesd_buffer_entry) :
    es.foldl pushBounded [] = es.drop (es.length - 10) := by
  induction es using List.reverseRecOn with
  | nil => rfl
  | append_singleton es e ih =>
    rw [List.foldl_append, ih]
    simp only [List.foldl_cons, List.foldl_nil]
    unfold pushBounded
    have hlen : (es.drop (es.length - 10)).length = es.length - (es.length - 10) := by
      simp
    have hL : (es ++ [e]).length = es.length + 1 := by simp
    by_cases hcase : es.length < 10
    · rw [if_neg (by omega), hL]
      have h0 : es.length - 10 = 0 := by omega
      have h1 : es.length + 1 - 10 = 0 := by omega
      rw [h0, List.drop_zero, h1, List.drop_zero]
    · rw [if_pos (by omega), hL]
      rw [List.tail_drop]
      have hidx : es.length - 10 + 1 = es.length + 1 - 10 := by omega
      rw [hidx]
      rw [List.drop_append_eq_append_drop]
      have h3 : es.length + 1 - 10 - es.length = 0 := by omega
      rw [h3, List.drop_zero]


lemma init_wf : RingWF aesd_circular_buffer_init := by decide

lemma logical_init : logicalEntries aesd_circular_buffer_init = [] := rfl

/-! ### Claim theorems -/

/-- C1: starting from the initialised empty ring, after any sequence of n
inserts the number of logical entries is min(n, capacity) — never more than
capacity — and the logical contents, read from out_offs up to in_offs
oldest-first, are exactly the most recently inserted min(n, capacity)
entries in insertion order. -/
theorem aesd_C1_bounded_retention (es : List aesd_buffer_entry) :
    entryCount (es.foldl aesd_circular_buffer_add_entry aesd_circular_buffer_init) ≤
      AESDCHAR_MAX_WRITE_OPERATIONS_SUPPORTED ∧
    entryCount (es.foldl aesd_circular_buffer_add_entry aesd_circular_buffer_init) =
      min es.length AESDCHAR_MAX_WRITE_OPERATIONS_SUPPORTED ∧
    logicalEntries (es.foldl aesd_circular_buffer_add_entry aesd_circular_buffer_init) =
      es.drop (es.length - AESDCHAR_MAX_WRITE_OPERATIONS_SUPPORTED) := by
  obtain ⟨hwf, hlog⟩ := fold_sim es aesd_circular_buffer_init init_wf
  rw [logical_init, pushBounded_fold] at hlog
  have hcnt : entryCount
      (es.foldl aesd_circular_buffer_add_entry aesd_circular_buffer_init) =
      (es.drop (es.length - 10)).length := by
    rw [← hlog, logical_length]
  have hdl : (es.drop (es.length - 10)).length = es.length - (es.length - 10) :=
    List.length_drop _ _
  rw [maxw_def]
  refine ⟨by omega, by omega, ?_⟩
  rw [hlog]

/-- C2: the offset search returns NULL exactly when the ring is empty or the
offset is at or past the sum of the logical entries' sizes; otherwise it
returns (a pointer to) the logical entry whose cumulative byte range
contains the offset, storing the local offset within it. -/
theorem aesd_C2_resolve_offset (b : aesd_circular_buffer) (hwf : RingWF b)
    (off : Nat) :
    (aesd_circular_buffer_find_entry_offset_for_fpos b off = none ↔
      (logicalEntries b = [] ∨ sumSizes (logicalEntries b) ≤ off)) ∧
    (∀ idx loc,
      aesd_circular_buffer_find_entry_offset_for_fpos b off = some (idx, loc) →
      ∃ i, i < entryCount b ∧
        idx = (b.out_offs + i) % AESDCHAR_MAX_WRITE_OPERATIONS_SUPPORTED ∧
        b.entry.getD idx emptyEntry = (logicalEntries b).getD i emptyEntry ∧
        sumSizes ((logicalEntries b).take i) ≤ off ∧
        off < sumSizes ((logicalEntries b).take i) +
          ((logicalEntries b).getD i emptyEntry).size ∧
        loc = off - sumSizes ((logicalEntries b).take i)) := by
  constructor
  · rw [find_eq_walk b hwf off, Option.map_eq_none', walkFind_none_iff]
    constructor
    · intro h
      right
      exact h
    · rintro (h | h)
      · rw [h]
        exact Nat.zero_le off
      · exact h
  · intro idx loc hsome
    rw [find_eq_walk b hwf off] at hsome
    rcases hw : walkFind (logicalEntries b) off with _ | p
    · rw [hw] at hsome
      exact Option.noConfusion hsome
    · rw [hw, Option.map_some'] at hsome
      obtain ⟨h1, h2⟩ := Prod.mk.injEq .. ▸ (Option.some.injEq .. ▸ hsome :
        ((b.out_offs + p.1) % 10, p.2) = (idx, loc))
      obtain ⟨hlt, hle, hub, hl⟩ :=
        walkFind_some_spec (logicalEntries b) off p.1 p.2 hw
      refine ⟨p.1, ?_, ?_, ?_, hle, hub, ?_⟩
      · rw [← logical_length]
        exact hlt
      · rw [← h1, maxw_def]
      · rw [← h1]
        exact (logical_getD (by rw [← logical_length]; exact hlt)).symm
      · rw [← h2]
        exact hl

/-- C2 witness: instantiated on the two-entry ring at offset 4. -/
theorem aesd_C2_resolve_offset_witness :
    RingWF bTwo ∧
    ((aesd_circular_buffer_find_entry_offset_for_fpos bTwo 4 = none ↔
      (logicalEntries bTwo = [] ∨ sumSizes (logicalEntries bTwo) ≤ 4)) ∧
    (∀ idx loc,
      aesd_circular_buffer_find_entry_offset_for_fpos bTwo 4 = some (idx, loc) →
      ∃ i, i < entryCount bTwo ∧
        idx = (bTwo.out_offs + i) % AESDCHAR_MAX_WRITE_OPERATIONS_SUPPORTED ∧
        bTwo.entry.getD idx emptyEntry = (logicalEntries bTwo).getD i emptyEntry ∧
        sumSizes ((logicalEntries bTwo).take i) ≤ 4 ∧
        4 < sumSizes ((logicalEntries bTwo).take i) +
          ((logicalEntries bTwo).getD i emptyEntry).size ∧
        loc = 4 - sumSizes ((logicalEntries bTwo).take i))) :=
  ⟨by decide, aesd_C2_resolve_offset bTwo (by decide) 4⟩

/-- C3: the command-index seek fails exactly when the command index is at or
past the entry count (including the empty ring) or the byte offset is at or
past that entry's size; otherwise the resulting position is the sum of the
sizes of the logical entries before the command plus the byte offset. -/
theorem aesd_C3_seek_to_command (b : aesd_circular_buffer) (hwf : RingWF b)
    (wc wco : Nat) :
    (aesd_adjust_file_offset b wc wco = none ↔
      (entryCount b ≤ wc ∨ ((logicalEntries b).getD wc emptyEntry).size ≤ wco)) ∧
    (∀ g, aesd_adjust_file_offset b wc wco = some g →
      g = sumSizes ((logicalEntries b).take wc) + wco) := by
  have hadj := adjust_eq b hwf wc wco
  constructor
  · rw [hadj]
    split_ifs with hc
    · constructor
      · intro h
        simp at h
      · intro h
        exfalso
        rcases h with h | h <;> omega
    · have hd : entryCount b ≤ wc ∨
          ((logicalEntries b).getD wc emptyEntry).size ≤ wco := by omega
      exact ⟨fun _ => hd, fun _ => rfl⟩
  · intro g hg
    rw [hadj] at hg
    split_ifs at hg with hc
    exact (Option.some.inj hg).symm

/-- C3 witness: on the two-entry ring, seeking to command 5 (the spec's
concrete scenario) is rejected. -/
theorem aesd_C3_seek_to_command_witness :
    RingWF bTwo ∧
    ((aesd_adjust_file_offset bTwo 5 0 = none ↔
      (entryCount bTwo ≤ 5 ∨ ((logicalEntries bTwo).getD 5 emptyEntry).size ≤ 0)) ∧
    (∀ g, aesd_adjust_file_offset bTwo 5 0 = some g →
      g = sumSizes ((logicalEntries bTwo).take 5) + 0)) :=
  ⟨by decide, aesd_C3_seek_to_command bTwo (by decide) 5 0⟩


/-- C4 counterexample: on a structurally wellformed ring whose oldest
logical entry has size 0, logical index 0 is in range yet the command-index
resolution rejects (0, 0) instead of yielding the global offset at which the
offset search first enters that entry — so the two resolutions do not agree
for every ring state and every logical index. -/
theorem aesd_C4_counterexample :
    RingWF bZero ∧ entryCount bZero = 2 ∧ 0 < entryCount bZero ∧
    aesd_adjust_file_offset bZero 0 0 = none := by decide

/-- C4 (amended): for every wellformed ring state and logical index i in
range whose entry has positive size (true of every committed record, which
contains its terminator), resolving command offset (i, 0) yields exactly the
cumulative offset of the entries before i, and the offset search at that
global offset returns entry i with local offset 0. -/
theorem aesd_C4_resolutions_agree (b : aesd_circular_buffer) (hwf : RingWF b)
    (i : Nat) (hi : i < entryCount b)
    (hpos : 0 < ((logicalEntries b).getD i emptyEntry).size) :
    aesd_adjust_file_offset b i 0 =
      some (sumSizes ((logicalEntries b).take i)) ∧
    aesd_circular_buffer_find_entry_offset_for_fpos b
        (sumSizes ((logicalEntries b).take i)) =
      some ((b.out_offs + i) % AESDCHAR_MAX_WRITE_OPERATIONS_SUPPORTED, 0) := by
  constructor
  · rw [adjust_eq b hwf i 0, if_pos ⟨hi, hpos⟩, Nat.add_zero]
  · rw [find_eq_walk b hwf _,
      walkFind_boundary (logicalEntries b) i
        (by rw [logical_length]; exact hi) hpos,
      Option.map_some']
    rw [maxw_def]

/-- C4 witness: the agreement instantiated at logical index 1 of the
two-entry ring. -/
theorem aesd_C4_resolutions_agree_witness :
    RingWF bTwo ∧ 1 < entryCount bTwo ∧
    0 < ((logicalEntries bTwo).getD 1 emptyEntry).size ∧
    (aesd_adjust_file_offset bTwo 1 0 =
      some (sumSizes ((logicalEntries bTwo).take 1)) ∧
    aesd_circular_buffer_find_entry_offset_for_fpos bTwo
        (sumSizes ((logicalEntries bTwo).take 1)) =
      some ((bTwo.out_offs + 1) % AESDCHAR_MAX_WRITE_OPERATIONS_SUPPORTED, 0)) :=
  ⟨by decide, by decide, by decide,
    aesd_C4_resolutions_agree bTwo (by decide) 1 (by decide) (by decide)⟩

/-- C5: a read at or past the total size returns no bytes (EOF) and leaves
the position unchanged; otherwise it returns exactly
min(count, entrySize - localOffset) bytes taken entirely from the single
logical entry containing the position — never spanning two entries — and
advances the position by exactly the bytes returned. -/
theorem aesd_C5_read_single_entry (b : aesd_circular_buffer) (hwf : RingWF b)
    (hsz : SizesWF b) (p count : Nat) :
    (sumSizes (logicalEntries b) ≤ p → aesd_read b p count = ([], p)) ∧
    (p < sumSizes (logicalEntries b) →
      ∃ i, i < entryCount b ∧
        sumSizes ((logicalEntries b).take i) ≤ p ∧
        p < sumSizes ((logicalEntries b).take i) +
          ((logicalEntries b).getD i emptyEntry).size ∧
        (aesd_read b p count).1 =
          (((logicalEntries b).getD i emptyEntry).buffptr.drop
            (p - sumSizes ((logicalEntries b).take i))).take
            (min count (((logicalEntries b).getD i emptyEntry).size -
              (p - sumSizes ((logicalEntries b).take i)))) ∧
        (aesd_read b p count).1.length =
          min count (((logicalEntries b).getD i emptyEntry).size -
            (p - sumSizes ((logicalEntries b).take i))) ∧
        (aesd_read b p count).2 =
          p + min count (((logicalEntries b).getD i emptyEntry).size -
            (p - sumSizes ((logicalEntries b).take i)))) := by
  constructor
  · intro hp
    have hnone : aesd_circular_buffer_find_entry_offset_for_fpos b p = none := by
      rw [find_eq_walk b hwf p, Option.map_eq_none', walkFind_none_iff]
      exact hp
    unfold aesd_read
    rw [hnone]
  · intro hp
    rcases hw : walkFind (logicalEntries b) p with _ | pr
    · rw [walkFind_none_iff] at hw
      omega
    · have hfind : aesd_circular_buffer_find_entry_offset_for_fpos b p =
          some ((b.out_offs + pr.1) % 10, pr.2) := by
        rw [find_eq_walk b hwf p, hw, Option.map_some']
      obtain ⟨hlt, hle, hub, hl⟩ :=
        walkFind_some_spec (logicalEntries b) p pr.1 pr.2 hw
      have hcnt : pr.1 < entryCount b := by rw [← logical_length]; exact hlt
      have hslot : b.entry.getD ((b.out_offs + pr.1) % 10) emptyEntry =
          (logicalEntries b).getD pr.1 emptyEntry := by
        have := logical_getD hcnt
        rw [maxw_def] at this
        exact this.symm
      have hmem : (logicalEntries b).getD pr.1 emptyEntry ∈ logicalEntries b := by
        rw [List.getD_eq_getElem (logicalEntries b) emptyEntry hlt]
        exact List.getElem_mem hlt
      have hbl : ((logicalEntries b).getD pr.1 emptyEntry).buffptr.length =
          ((logicalEntries b).getD pr.1 emptyEntry).size := hsz _ hmem
      have hread : aesd_read b p count =
          ((((logicalEntries b).getD pr.1 emptyEntry).buffptr.drop pr.2).take
            (if count < ((logicalEntries b).getD pr.1 emptyEntry).size - pr.2 then
              count
            else ((logicalEntries b).getD pr.1 emptyEntry).size - pr.2),
           p + (if count < ((logicalEntries b).getD pr.1 emptyEntry).size - pr.2 then
              count
            else ((logicalEntries b).getD pr.1 emptyEntry).size - pr.2)) := by
        simp only [aesd_read, hfind, hslot]
      have hmin : (if count < ((logicalEntries b).getD pr.1 emptyEntry).size - pr.2 then
          count
        else ((logicalEntries b).getD pr.1 emptyEntry).size - pr.2) =
          min count (((logicalEntries b).getD pr.1 emptyEntry).size - pr.2) := by
        split_ifs <;> omega
      rw [hmin] at hread
      refine ⟨pr.1, hcnt, hle, hub, ?_, ?_, ?_⟩
      · rw [hread, hl]
      · rw [hread, hl]
        simp only [List.length_take, List.length_drop, hbl]
        omega
      · rw [hread, hl]

/-- C5 witness: instantiated on the two-entry ring at position 4 with
request size 10. -/
theorem aesd_C5_read_single_entry_witness :
    RingWF bTwo ∧ SizesWF bTwo ∧
    ((sumSizes (logicalEntries bTwo) ≤ 4 → aesd_read bTwo 4 10 = ([], 4)) ∧
    (4 < sumSizes (logicalEntries bTwo) →
      ∃ i, i < entryCount bTwo ∧
        sumSizes ((logicalEntries bTwo).take i) ≤ 4 ∧
        4 < sumSizes ((logicalEntries bTwo).take i) +
          ((logicalEntries bTwo).getD i emptyEntry).size ∧
        (aesd_read bTwo 4 10).1 =
          (((logicalEntries bTwo).getD i emptyEntry).buffptr.drop
            (4 - sumSizes ((logicalEntries bTwo).take i))).take
            (min 10 (((logicalEntries bTwo).getD i emptyEntry).size -
              (4 - sumSizes ((logicalEntries bTwo).take i)))) ∧
        (aesd_read bTwo 4 10).1.length =
          min 10 (((logicalEntries bTwo).getD i emptyEntry).size -
            (4 - sumSizes ((logicalEntries bTwo).take i))) ∧
        (aesd_read bTwo 4 10).2 =
          4 + min 10 (((logicalEntries bTwo).getD i emptyEntry).size -
            (4 - sumSizes ((logicalEntries bTwo).take i))))) :=
  ⟨by decide, by decide, aesd_C5_read_single_entry bTwo (by decide) (by decide) 4 10⟩


/-- C6 counterexample: a single write containing two terminators, applied to
a fresh device, produces ONE ring entry holding the entire data (terminators
included) with an empty assembly buffer — not two entries as the claim's
slicing loop would produce. -/
theorem aesd_C6_counterexample :
    ((aesd_write true devEmpty [97, 10, 98, 10]).1.temp_buffer = [] ∧
     logicalEntries (aesd_write true devEmpty [97, 10, 98, 10]).1.circular_buffer =
       [{ buffptr := [97, 10, 98, 10], size := 4 }]) ∧
    ¬ entryCount (aesd_write true devEmpty [97, 10, 98, 10]).1.circular_buffer = 2 := by
  decide

/-- C6 (amended): a write appends the incoming bytes to the pending assembly
buffer; if the incoming data contains at least one newline, the ENTIRE
accumulated assembly buffer — including any bytes after the first or last
terminator — is inserted into the ring as a single entry (the slot of the
evicted entry being overwritten by the insert) and the assembly buffer is
reset to empty; bytes after the last terminator are therefore committed with
that entry, not retained. -/
theorem aesd_C6_commit_whole_buffer (dev : aesd_dev) (data : List Nat)
    (h : data.contains 10 = true) :
    (aesd_write true dev data).1.circular_buffer =
      aesd_circular_buffer_add_entry dev.circular_buffer
        { buffptr := dev.temp_buffer ++ data
        , size := dev.temp_buffer_size + data.length } ∧
    (aesd_write true dev data).1.temp_buffer = [] ∧
    (aesd_write true dev data).1.temp_buffer_size = 0 ∧
    (aesd_write true dev data).2 = Except.ok (data.length,
      aesd_get_total_size (aesd_write true dev data).1.circular_buffer) := by
  have hm : 10 ∈ data := by simpa using h
  refine ⟨?_, ?_, ?_, ?_⟩ <;> simp [aesd_write, hm]

/-- C6 witness: the amended commit behaviour on a device holding one pending
byte, written with data ending in a terminator. -/
theorem aesd_C6_commit_whole_buffer_witness :
    ([105, 10].contains 10 = true) ∧
    ((aesd_write true devTmp [105, 10]).1.circular_buffer =
      aesd_circular_buffer_add_entry devTmp.circular_buffer
        { buffptr := devTmp.temp_buffer ++ [105, 10]
        , size := devTmp.temp_buffer_size + [105, 10].length } ∧
    (aesd_write true devTmp [105, 10]).1.temp_buffer = [] ∧
    (aesd_write true devTmp [105, 10]).1.temp_buffer_size = 0 ∧
    (aesd_write true devTmp [105, 10]).2 = Except.ok ([105, 10].length,
      aesd_get_total_size (aesd_write true devTmp [105, 10]).1.circular_buffer)) :=
  ⟨by decide, aesd_C6_commit_whole_buffer devTmp [105, 10] (by decide)⟩

/-- C8: when allocation fails the write returns -ENOMEM and the shared
device state — the pending assembly buffer and every ring entry — is exactly
as it was before the call. -/
theorem aesd_C8_alloc_failure_atomic (dev : aesd_dev) (data : List Nat) :
    (aesd_write false dev data).1 = dev ∧
    (aesd_write false dev data).1.temp_buffer = dev.temp_buffer ∧
    (aesd_write false dev data).1.temp_buffer_size = dev.temp_buffer_size ∧
    logicalEntries (aesd_write false dev data).1.circular_buffer =
      logicalEntries dev.circular_buffer ∧
    (aesd_write false dev data).2 = Except.error (-12) :=
  ⟨rfl, rfl, rfl, rfl, rfl⟩

/-- C10: a write whose data contains no newline leaves the circular buffer
entirely unchanged — entries array, in_offs, out_offs and the full flag —
while only the assembly buffer and its recorded size grow by the written
bytes, and the call reports the full byte count as accepted. -/
theorem aesd_C10_no_newline_frame (dev : aesd_dev) (data : List Nat)
    (h : data.contains 10 = false) :
    (aesd_write true dev data).1.circular_buffer = dev.circular_buffer ∧
    (aesd_write true dev data).1.temp_buffer = dev.temp_buffer ++ data ∧
    (aesd_write true dev data).1.temp_buffer_size =
      dev.temp_buffer_size + data.length ∧
    (aesd_write true dev data).2 =
      Except.ok (data.length, aesd_get_total_size dev.circular_buffer) := by
  have hm : 10 ∉ data := by simpa using h
  refine ⟨?_, ?_, ?_, ?_⟩ <;> simp [aesd_write, hm]

/-- C10 witness: two non-newline bytes written to the device with one
pending byte. -/
theorem aesd_C10_no_newline_frame_witness :
    ([104, 105].contains 10 = false) ∧
    ((aesd_write true devTmp [104, 105]).1.circular_buffer =
        devTmp.circular_buffer ∧
    (aesd_write true devTmp [104, 105]).1.temp_buffer =
      devTmp.temp_buffer ++ [104, 105] ∧
    (aesd_write true devTmp [104, 105]).1.temp_buffer_size =
      devTmp.temp_buffer_size + [104, 105].length ∧
    (aesd_write true devTmp [104, 105]).2 =
      Except.ok ([104, 105].length, aesd_get_total_size devTmp.circular_buffer)) :=
  ⟨by decide, aesd_C10_no_newline_frame devTmp [104, 105] (by decide)⟩


/-! ### Parsing lemmas for the seek command -/

lemma memchrIdx_none (l : List Nat) (t : Nat) (h : t ∉ l) : memchrIdx l t = none := by
  induction l with
  | nil => rfl
  | cons c rest ih =>
    have hne : ¬ (c = t) := fun hc => h (hc ▸ List.mem_cons_self c rest)
    simp only [memchrIdx, if_neg hne]
    rw [ih (fun hm => h (List.mem_cons_of_mem c hm))]
    rfl


/-- C9 counterexample: a chunk with no terminator is NOT kept in the receive
buffer: the buffer is emptied and the bytes are appended to the backing file
immediately. -/
theorem aesd_C9_counterexample :
    handle_chunk [97, 98, 99] [] = ([], [97, 98, 99]) ∧
    ¬ handle_chunk [97, 98, 99] [] = ([97, 98, 99], []) := by decide

/-- C9 (amended): after all terminator-delimited records in the chunk have
been extracted and dispatched, any remaining bytes containing no terminator
are immediately appended to the backing file and the receive buffer is
emptied (only the echo of the file back to the client waits for a complete
packet). -/
theorem aesd_C9_flush_remainder (chunk file : List Nat)
    (h : chunk.contains 10 = false) (hne : chunk ≠ []) :
    handle_chunk chunk file = ([], file ++ chunk) := by
  have hm : 10 ∉ chunk := by simpa using h
  have hnone : memchrIdx chunk 10 = none := memchrIdx_none chunk 10 hm
  have hlen : 0 < chunk.length := List.length_pos.mpr hne
  unfold handle_chunk
  simp [processChunk, hnone, hlen]

/-- C9 witness: two non-terminator bytes received while the file already
holds one record. -/
theorem aesd_C9_flush_remainder_witness :
    ([120, 121].contains 10 = false) ∧ ([120, 121] ≠ ([] : List Nat)) ∧
    handle_chunk [120, 121] [97, 10] = ([], [97, 10] ++ [120, 121]) :=
  ⟨by decide, by decide,
    aesd_C9_flush_remainder [120, 121] [97, 10] (by decide) (by decide)⟩
